import Mathlib

/-! The libc shim of `stb_image_libc.c` and `stb_truetype_libc.c`.

A shallow embedding of the three locally implemented libc functions
(`strcmp`, `strncmp`, `abs`), of the forwarding functions (`pow`, `memset`,
`memcpy`) and of the assertion macros (`STBI_ASSERT`, `STBIW_ASSERT`,
`STBTT_assert`), followed by the properties proved about them.

Memory model. A `char *` is the list of the bytes that are readable from the
pointer onwards: `*p` is the head of the list, `p++` is its tail, and reading
from the empty list is a read outside the buffer, which makes the whole call
return `none`. Bytes are `Fin 256`, the value of the byte seen as
`unsigned char`; `==` on two `char`s and the truth value of a `char` do not
depend on the signedness of `char`, so the same value serves for both.
-/

namespace Rui

/-! ## Data model -/

/-- One byte of memory, as its `unsigned char` value. -/
abbrev Byte := Fin 256

/-- The bytes of the C string held in a buffer, terminator excluded. -/
def str (b : List Byte) : List Byte := b.takeWhile (fun c => c ≠ 0)

/-- The length of the C string held in a buffer (index of the first NUL). -/
def strlen (b : List Byte) : Nat := (str b).length

/-- The C string held in a buffer, up to and including its terminator. -/
def cstring (b : List Byte) : List Byte := str b ++ [0]

/-- The C string held in a buffer cut to at most its first `n` bytes (and
terminated again). -/
def truncated (b : List Byte) (n : Nat) : List Byte := (str b).take n ++ [0]

/-- The part of a buffer that a comparison bounded by `n` may read: indices
below `n`, and none after the first NUL. -/
def window (b : List Byte) (n : Nat) : List Byte := (b.take (strlen b + 1)).take n

/-! ## `strcmp`, `strncmp`, `abs` (stb_image_libc.c, lines 29 to 46) -/

/-- The function `strcmp`:
`for (; *l==*r && *l; l++, r++); return *(unsigned char *)l - *(unsigned char *)r;`
Every evaluation of the loop condition reads `*l` and `*r`; the `return`
reads the same two bytes again. The subtraction is done in `int` on two
values in `0..255`, so it cannot overflow. -/
def strcmp : List Byte → List Byte → Option Int
  | a :: l, b :: r =>
    if a = b ∧ a ≠ 0 then strcmp l r else some ((a.val : Int) - (b.val : Int))
  | _, _ => none

/-- The loop and the `return` of `strncmp`, entered with `n` already
decremented:
`for (; *l && *r && n && *l == *r ; l++, r++, n--); return *l - *r;`
At every position reached, `*l` and `*r` are both read (by the condition or,
when the condition stops early, by the `return`). -/
def strncmp_loop : List Byte → List Byte → Nat → Option Int
  | a :: l, b :: r, n =>
    if a ≠ 0 ∧ b ≠ 0 ∧ n ≠ 0 ∧ a = b then strncmp_loop l r (n - 1)
    else some ((a.val : Int) - (b.val : Int))
  | _, _, _ => none

/-- The function `strncmp`: `if (!n--) return 0;` and then the loop. -/
def strncmp (l r : List Byte) (n : Nat) : Option Int :=
  if n = 0 then some 0 else strncmp_loop l r (n - 1)

/-- The least value of `int` (32 bits, two's complement). -/
def INT_MIN : Int := -2147483648

/-- The greatest value of `int`. -/
def INT_MAX : Int := 2147483647

/-- Reduction of a mathematical integer to the `int` that a 32-bit two's
complement machine stores. -/
def wrap_int (x : Int) : Int := (x + 2147483648) % 4294967296 - 2147483648

/-- The function `abs`: `return a>0 ? a : -a;`, the negation being the
machine's. -/
def abs (a : Int) : Int := if a > 0 then a else wrap_int (-a)

/-! ## Host primitives and what forwards to them -/

/-- The primitives that the host supplies (`extern` declarations of the two
files). They are arbitrary effectful functions: `m` is the monad of their
effects, `Ptr` the type of `void *`, `Dbl` the type of `double`. -/
structure Host (m : Type → Type) (Ptr Dbl : Type) where
  /-- Host `void rui_c_panic(char const *msg)`. -/
  rui_c_panic : String → m Unit
  /-- Host `double rui_c_pow(double x, double y)`. -/
  rui_c_pow : Dbl → Dbl → m Dbl
  /-- Host `void *rui_c_memset(void *dest, int x, size_t n)`. -/
  rui_c_memset : Ptr → Int → Nat → m Ptr
  /-- Host `void *rui_c_memcpy(void *dest, const void *src, size_t n)`. -/
  rui_c_memcpy : Ptr → Ptr → Nat → m Ptr

/-- The function `pow`: `return rui_c_pow(x, y);` -/
def pow {m : Type → Type} {Ptr Dbl : Type} (h : Host m Ptr Dbl) (x y : Dbl) : m Dbl :=
  h.rui_c_pow x y

/-- The function `memset`: `return rui_c_memset(dest, x, n);` -/
def memset {m : Type → Type} {Ptr Dbl : Type} (h : Host m Ptr Dbl)
    (dest : Ptr) (x : Int) (n : Nat) : m Ptr :=
  h.rui_c_memset dest x n

/-- The function `memcpy`: `return rui_c_memcpy(dest, src, n);` -/
def memcpy {m : Type → Type} {Ptr Dbl : Type} (h : Host m Ptr Dbl)
    (dest src : Ptr) (n : Nat) : m Ptr :=
  h.rui_c_memcpy dest src n

/-- The message built by `"Assertion " #_Assertion " failed!"`, where `text`
is what the preprocessor makes of `#_Assertion`. -/
def assertion_message (text : String) : String := "Assertion " ++ text ++ " failed!"

/-- The macro `STBI_ASSERT(_Assertion)`:
`do { if ((_Assertion) == 0) rui_c_panic("Assertion " #_Assertion " failed!"); } while (0)`.
`text` is the stringized argument, `value` what the argument evaluates to. -/
def STBI_ASSERT {m : Type → Type} [Monad m] {Ptr Dbl : Type} (h : Host m Ptr Dbl)
    (text : String) (value : Int) : m Unit :=
  if value = 0 then h.rui_c_panic (assertion_message text) else pure ()

/-- The macro `STBIW_ASSERT(_Assertion)`, same body as `STBI_ASSERT`. -/
def STBIW_ASSERT {m : Type → Type} [Monad m] {Ptr Dbl : Type} (h : Host m Ptr Dbl)
    (text : String) (value : Int) : m Unit :=
  if value = 0 then h.rui_c_panic (assertion_message text) else pure ()

/-- The macro `STBTT_assert(_Assertion)` of stb_truetype_libc.c, same body. -/
def STBTT_assert {m : Type → Type} [Monad m] {Ptr Dbl : Type} (h : Host m Ptr Dbl)
    (text : String) (value : Int) : m Unit :=
  if value = 0 then h.rui_c_panic (assertion_message text) else pure ()

/-- One recorded call of a host primitive, with its arguments in the order
in which the primitive received them. -/
inductive Call (Ptr Dbl : Type) where
  | panic (msg : String)
  | pow (x y : Dbl)
  | memset (dest : Ptr) (x : Int) (n : Nat)
  | memcpy (dest src : Ptr) (n : Nat)

/-- The mock host: each primitive appends its call to the log and returns the
sentinel it was given. -/
def mock {Ptr Dbl : Type} (sd : Dbl) (sp : Ptr) : Host (StateM (List (Call Ptr Dbl))) Ptr Dbl where
  rui_c_panic := fun msg => modify (fun log => log ++ [Call.panic msg])
  rui_c_pow := fun x y => modifyGet (fun log => (sd, log ++ [Call.pow x y]))
  rui_c_memset := fun d x n => modifyGet (fun log => (sp, log ++ [Call.memset d x n]))
  rui_c_memcpy := fun d s n => modifyGet (fun log => (sp, log ++ [Call.memcpy d s n]))

/-! ## Auxiliary lemmas -/

theorem str_cons_zero (l : List Byte) : str (0 :: l) = [] := by
  simp [str]

theorem str_cons_ne (a : Byte) (l : List Byte) (h : a ≠ 0) : str (a :: l) = a :: str l := by
  simp [str, List.takeWhile_cons, h]

theorem byte_sub_eq_zero (a b : Byte) : ((a.val : Int) - (b.val : Int) = 0) ↔ a = b := by
  rw [sub_eq_zero, Nat.cast_inj, Fin.val_inj]

theorem strcmp_defined (a : List Byte) : ∀ b : List Byte, (0 : Byte) ∈ a → (0 : Byte) ∈ b →
    ∃ v, strcmp a b = some v := by
  induction a with
  | nil => intro b ha; simp at ha
  | cons x a ih =>
    intro b ha hb
    cases b with
    | nil => simp at hb
    | cons y b =>
      by_cases hc : x = y ∧ x ≠ 0
      · have hx : (0 : Byte) ≠ x := fun e => hc.2 e.symm
        have hy : (0 : Byte) ≠ y := fun e => hc.2 (hc.1.trans e.symm)
        simp only [strcmp, if_pos hc]
        exact ih b ((List.mem_cons.1 ha).resolve_left hx) ((List.mem_cons.1 hb).resolve_left hy)
      · simp only [strcmp, if_neg hc]
        exact ⟨_, rfl⟩

theorem strcmp_zero_iff_str (a : List Byte) : ∀ b : List Byte, (0 : Byte) ∈ a → (0 : Byte) ∈ b →
    (strcmp a b = some 0 ↔ str a = str b) := by
  induction a with
  | nil => intro b ha; simp at ha
  | cons x a ih =>
    intro b ha hb
    cases b with
    | nil => simp at hb
    | cons y b =>
      by_cases hc : x = y ∧ x ≠ 0
      · have hx : (0 : Byte) ≠ x := fun e => hc.2 e.symm
        have hy : y ≠ 0 := fun e => hc.2 (hc.1.trans e)
        simp only [strcmp, if_pos hc]
        rw [ih b ((List.mem_cons.1 ha).resolve_left hx)
          ((List.mem_cons.1 hb).resolve_left (Ne.symm hy)),
          str_cons_ne x a hc.2, str_cons_ne y b hy]
        simp [hc.1]
      · simp only [strcmp, if_neg hc, Option.some.injEq, byte_sub_eq_zero]
        by_cases hx : x = 0
        · subst hx
          by_cases hy : y = 0
          · subst hy; simp [str_cons_zero]
          · rw [str_cons_zero, str_cons_ne y b hy]
            constructor
            · intro e; exact absurd e.symm hy
            · intro e; simp at e
        · have hxy : x ≠ y := fun e => hc ⟨e, hx⟩
          by_cases hy : y = 0
          · subst hy
            rw [str_cons_zero, str_cons_ne x a hx]
            simp [hx]
          · rw [str_cons_ne x a hx, str_cons_ne y b hy]
            simp [hxy]

theorem cstring_eq_iff (a b : List Byte) : cstring a = cstring b ↔ str a = str b := by
  unfold cstring
  exact List.append_left_inj _

theorem str_eq_iff_index (a : List Byte) : ∀ b : List Byte, (0 : Byte) ∈ a → (0 : Byte) ∈ b →
    (str a = str b ↔ strlen a = strlen b ∧ ∀ i, i ≤ strlen a → a[i]? = b[i]?) := by
  induction a with
  | nil => intro b ha; simp at ha
  | cons x a ih =>
    intro b ha hb
    cases b with
    | nil => simp at hb
    | cons y b =>
      by_cases hx : x = 0
      · subst hx
        by_cases hy : y = 0
        · subst hy; simp [strlen, str_cons_zero]
        · simp only [strlen, str_cons_zero, str_cons_ne y b hy]
          constructor
          · intro e; simp at e
          · intro e; simp at e
      · by_cases hy : y = 0
        · subst hy
          simp only [strlen, str_cons_zero, str_cons_ne x a hx]
          constructor
          · intro e; simp at e
          · intro e; simp at e
        · have ha2 := (List.mem_cons.1 ha).resolve_left (Ne.symm hx)
          have hb2 := (List.mem_cons.1 hb).resolve_left (Ne.symm hy)
          simp only [strlen, str_cons_ne x a hx, str_cons_ne y b hy, List.cons.injEq,
            List.length_cons, Nat.add_right_cancel_iff]
          rw [ih b ha2 hb2]
          simp only [strlen]
          constructor
          · rintro ⟨hxy, hl, hi⟩
            refine ⟨hl, ?_⟩
            intro i hi2
            cases i with
            | zero => simp [hxy]
            | succ i => simpa using hi i (by omega)
          · rintro ⟨hl, hi⟩
            refine ⟨?_, hl, ?_⟩
            · simpa using hi 0 (by omega)
            · intro i hi2
              simpa using hi (i + 1) (by omega)


theorem cstring_cons (x : Byte) (l : List Byte) :
    cstring (x :: l) = x :: (if x = 0 then [] else cstring l) := by
  by_cases hx : x = 0
  · subst hx; simp [cstring, str_cons_zero]
  · simp [cstring, str_cons_ne x l hx, hx]

theorem mem_tail_of_ne {x : Byte} {l : List Byte} (h : (0 : Byte) ∈ x :: l) (hx : x ≠ 0) :
    (0 : Byte) ∈ l :=
  (List.mem_cons.1 h).resolve_left (Ne.symm hx)

theorem exists_first_difference {α : Type} (u : List α) : ∀ v : List α, u ≠ v →
    ∃ k : Nat, (∀ j : Nat, j < k → u[j]? = v[j]?) ∧ u[k]? ≠ v[k]? := by
  induction u with
  | nil =>
    intro v h
    cases v with
    | nil => exact absurd rfl h
    | cons y v => exact ⟨0, by intro j hj; omega, by simp⟩
  | cons x u ih =>
    intro v h
    cases v with
    | nil => exact ⟨0, by intro j hj; omega, by simp⟩
    | cons y v =>
      by_cases hxy : x = y
      · subst hxy
        have huv : u ≠ v := fun e => h (by rw [e])
        obtain ⟨k, hk1, hk2⟩ := ih v huv
        refine ⟨k + 1, ?_, by simpa using hk2⟩
        intro j hj
        cases j with
        | zero => simp
        | succ j => simpa using hk1 j (by omega)
      · exact ⟨0, by intro j hj; omega, by simpa using hxy⟩

theorem strcmp_at_difference (l : List Byte) : ∀ (r : List Byte) (k : Nat),
    (0 : Byte) ∈ l → (0 : Byte) ∈ r →
    (∀ j : Nat, j < k → (cstring l)[j]? = (cstring r)[j]?) → (cstring l)[k]? ≠ (cstring r)[k]? →
    ∃ a b : Byte, l[k]? = some a ∧ r[k]? = some b ∧
      strcmp l r = some ((a.val : Int) - (b.val : Int)) := by
  induction l with
  | nil => intro r k hl; simp at hl
  | cons x l ih =>
    intro r k hl hr hagree hdiff
    cases r with
    | nil => simp at hr
    | cons y r =>
      rw [cstring_cons, cstring_cons] at hdiff
      cases k with
      | zero =>
        have hxy : x ≠ y := by simpa using hdiff
        refine ⟨x, y, by simp, by simp, ?_⟩
        simp [strcmp, hxy]
      | succ k =>
        have h0 := hagree 0 (by omega)
        rw [cstring_cons, cstring_cons] at h0
        have hxy : x = y := by simpa using h0
        subst hxy
        by_cases hx : x = 0
        · simp [hx] at hdiff
        · simp only [hx, if_false, List.getElem?_cons_succ] at hdiff
          have hag : ∀ j, j < k → (cstring l)[j]? = (cstring r)[j]? := by
            intro j hj
            have := hagree (j + 1) (by omega)
            rw [cstring_cons, cstring_cons] at this
            simpa [hx] using this
          obtain ⟨a, b, h1, h2, h3⟩ :=
            ih r k (mem_tail_of_ne hl hx) (mem_tail_of_ne hr hx) hag hdiff
          refine ⟨a, b, by simpa using h1, by simpa using h2, ?_⟩
          simp only [strcmp, hx, ne_eq, not_false_eq_true, and_self, if_true]
          exact h3


theorem strncmp_loop_at_difference (l : List Byte) : ∀ (r : List Byte) (k m : Nat),
    (0 : Byte) ∈ l → (0 : Byte) ∈ r → k ≤ m →
    (∀ j : Nat, j < k → (cstring l)[j]? = (cstring r)[j]?) →
    (cstring l)[k]? ≠ (cstring r)[k]? →
    ∃ a b : Byte, l[k]? = some a ∧ r[k]? = some b ∧
      strncmp_loop l r m = some ((a.val : Int) - (b.val : Int)) := by
  induction l with
  | nil => intro r k m hl; simp at hl
  | cons x l ih =>
    intro r k m hl hr hkm hagree hdiff
    cases r with
    | nil => simp at hr
    | cons y r =>
      rw [cstring_cons, cstring_cons] at hdiff
      cases k with
      | zero =>
        have hxy : x ≠ y := by simpa using hdiff
        refine ⟨x, y, by simp, by simp, ?_⟩
        simp [strncmp_loop, hxy]
      | succ k =>
        have h0 := hagree 0 (by omega)
        rw [cstring_cons, cstring_cons] at h0
        have hxy : x = y := by simpa using h0
        subst hxy
        by_cases hx : x = 0
        · simp [hx] at hdiff
        · simp only [hx, if_false, List.getElem?_cons_succ] at hdiff
          have hag : ∀ j : Nat, j < k → (cstring l)[j]? = (cstring r)[j]? := by
            intro j hj
            have := hagree (j + 1) (by omega)
            rw [cstring_cons, cstring_cons] at this
            simpa [hx] using this
          obtain ⟨a, b, h1, h2, h3⟩ :=
            ih r k (m - 1) (mem_tail_of_ne hl hx) (mem_tail_of_ne hr hx) (by omega) hag hdiff
          refine ⟨a, b, by simpa using h1, by simpa using h2, ?_⟩
          have hm : m ≠ 0 := by omega
          simp only [strncmp_loop, hx, hm, ne_eq, not_false_eq_true, and_self, if_true]
          exact h3

theorem strncmp_loop_agree (l : List Byte) : ∀ (r : List Byte) (m : Nat),
    (0 : Byte) ∈ l → (0 : Byte) ∈ r →
    (∀ k : Nat, k ≤ m → (cstring l)[k]? = (cstring r)[k]?) →
    strncmp_loop l r m = some 0 := by
  induction l with
  | nil => intro r m hl; simp at hl
  | cons x l ih =>
    intro r m hl hr hagree
    cases r with
    | nil => simp at hr
    | cons y r =>
      have h0 := hagree 0 (by omega)
      rw [cstring_cons, cstring_cons] at h0
      have hxy : x = y := by simpa using h0
      subst hxy
      by_cases hc : x ≠ 0 ∧ m ≠ 0
      · obtain ⟨hx, hm⟩ := hc
        simp only [strncmp_loop, hx, hm, ne_eq, not_false_eq_true, and_self, if_true]
        apply ih r (m - 1) (mem_tail_of_ne hl hx) (mem_tail_of_ne hr hx)
        intro k hk
        have := hagree (k + 1) (by omega)
        rw [cstring_cons, cstring_cons] at this
        simpa [hx] using this
      · have hc2 : ¬(x ≠ 0 ∧ x ≠ 0 ∧ m ≠ 0 ∧ x = x) := fun h => hc ⟨h.1, h.2.2.1⟩
        rw [strncmp_loop, if_neg hc2, sub_self]

theorem truncated_zero (b : List Byte) : truncated b 0 = [0] := by
  simp [truncated]

theorem truncated_cons (x : Byte) (l : List Byte) (n : Nat) :
    truncated (x :: l) (n + 1) = x :: (if x = 0 then [] else truncated l n) := by
  by_cases hx : x = 0
  · subst hx; simp [truncated, str_cons_zero]
  · simp [truncated, str_cons_ne x l hx, hx]

theorem strncmp_loop_eq_strcmp_truncated (l : List Byte) : ∀ (r : List Byte) (m : Nat),
    (0 : Byte) ∈ l → (0 : Byte) ∈ r →
    strncmp_loop l r m = strcmp (truncated l (m + 1)) (truncated r (m + 1)) := by
  induction l with
  | nil => intro r m hl; simp at hl
  | cons x l ih =>
    intro r m hl hr
    cases r with
    | nil => simp at hr
    | cons y r =>
      rw [truncated_cons, truncated_cons]
      by_cases hc : x = y ∧ x ≠ 0
      · obtain ⟨hxy, hx⟩ := hc
        subst hxy
        simp only [strcmp, hx, ne_eq, not_false_eq_true, and_self, if_true, if_false]
        cases m with
        | zero => simp [strncmp_loop, truncated_zero, strcmp]
        | succ m =>
          simp only [strncmp_loop, hx, ne_eq, not_false_eq_true, and_self, if_true,
            Nat.add_one_ne_zero, Nat.add_sub_cancel]
          exact ih r m (mem_tail_of_ne hl hx) (mem_tail_of_ne hr hx)
      · have hc2 : ¬(x ≠ 0 ∧ y ≠ 0 ∧ m ≠ 0 ∧ x = y) := fun h => hc ⟨h.2.2.2, h.1⟩
        simp only [strcmp, strncmp_loop, if_neg hc, if_neg hc2]

theorem strncmp_loop_eq_strcmp (l : List Byte) : ∀ (r : List Byte) (m : Nat),
    (0 : Byte) ∈ l → (0 : Byte) ∈ r → min (strlen l) (strlen r) ≤ m →
    strncmp_loop l r m = strcmp l r := by
  induction l with
  | nil => intro r m hl; simp at hl
  | cons x l ih =>
    intro r m hl hr hm
    cases r with
    | nil => simp at hr
    | cons y r =>
      by_cases hc : x = y ∧ x ≠ 0
      · obtain ⟨hxy, hx⟩ := hc
        subst hxy
        simp only [strlen, str_cons_ne x _ hx, List.length_cons] at hm
        have hm0 : m ≠ 0 := by omega
        simp only [strcmp, strncmp_loop, hx, hm0, ne_eq, not_false_eq_true, and_self, if_true]
        apply ih r (m - 1) (mem_tail_of_ne hl hx) (mem_tail_of_ne hr hx)
        simp only [strlen]
        omega
      · have hc2 : ¬(x ≠ 0 ∧ y ≠ 0 ∧ m ≠ 0 ∧ x = y) := fun h => hc ⟨h.2.2.2, h.1⟩
        simp only [strcmp, strncmp_loop, if_neg hc, if_neg hc2]

theorem window_cons (x : Byte) (l : List Byte) (n : Nat) :
    window (x :: l) (n + 1) = x :: (if x = 0 then [] else window l n) := by
  by_cases hx : x = 0
  · subst hx; simp [window, strlen, str_cons_zero]
  · simp [window, strlen, str_cons_ne x l hx, hx]

theorem strncmp_loop_window (l : List Byte) : ∀ (r : List Byte) (m : Nat),
    strncmp_loop (window l (m + 1)) (window r (m + 1)) m = strncmp_loop l r m := by
  induction l with
  | nil => intro r m; simp [window, strncmp_loop]
  | cons x l ih =>
    intro r m
    cases r with
    | nil => simp [window, strncmp_loop]
    | cons y r =>
      rw [window_cons, window_cons]
      by_cases hc : x ≠ 0 ∧ y ≠ 0 ∧ m ≠ 0 ∧ x = y
      · obtain ⟨hx, hy, hm, hxy⟩ := hc
        obtain ⟨m, rfl⟩ := Nat.exists_eq_succ_of_ne_zero hm
        subst hxy
        simp only [strncmp_loop, hx, ne_eq, not_false_eq_true, and_self, if_true, if_false,
          Nat.succ_ne_zero, Nat.succ_sub_one]
        exact ih r m
      · simp only [strncmp_loop, if_neg hc]

theorem strncmp_loop_defined (l : List Byte) : ∀ (r : List Byte) (m : Nat),
    (m + 1 ≤ l.length ∨ (0 : Byte) ∈ l) → (m + 1 ≤ r.length ∨ (0 : Byte) ∈ r) →
    ∃ v, strncmp_loop l r m = some v := by
  induction l with
  | nil => intro r m hl; simp at hl
  | cons x l ih =>
    intro r m hl hr
    cases r with
    | nil => simp at hr
    | cons y r =>
      by_cases hc : x ≠ 0 ∧ y ≠ 0 ∧ m ≠ 0 ∧ x = y
      · obtain ⟨hx, hy, hm, hxy⟩ := hc
        obtain ⟨m, rfl⟩ := Nat.exists_eq_succ_of_ne_zero hm
        simp only [strncmp_loop, hx, hy, hxy, ne_eq, not_false_eq_true, and_self, if_true,
          Nat.succ_ne_zero, Nat.succ_sub_one]
        apply ih r m
        · rcases hl with h | h
          · left; simp only [List.length_cons] at h; omega
          · right; exact mem_tail_of_ne h hx
        · rcases hr with h | h
          · left; simp only [List.length_cons] at h; omega
          · right; exact mem_tail_of_ne h hy
      · simp only [strncmp_loop, if_neg hc]
        exact ⟨_, rfl⟩


theorem strcmp_antisymm (a : List Byte) : ∀ (b : List Byte) (v : Int),
    strcmp a b = some v → strcmp b a = some (-v) := by
  induction a with
  | nil => intro b v h; simp [strcmp] at h
  | cons x a ih =>
    intro b v h
    cases b with
    | nil => simp [strcmp] at h
    | cons y b =>
      by_cases hc : x = y ∧ x ≠ 0
      · obtain ⟨hxy, hx⟩ := hc
        subst hxy
        simp only [strcmp, hx, ne_eq, not_false_eq_true, and_self, if_true] at h ⊢
        exact ih b v h
      · have hc2 : ¬(y = x ∧ y ≠ 0) := fun e => hc ⟨e.1.symm, e.1 ▸ e.2⟩
        simp only [strcmp, if_neg hc, if_neg hc2, Option.some.injEq] at h ⊢
        omega

theorem strcmp_bounds (a : List Byte) : ∀ (b : List Byte) (v : Int),
    strcmp a b = some v → -255 ≤ v ∧ v ≤ 255 := by
  induction a with
  | nil => intro b v h; simp [strcmp] at h
  | cons x a ih =>
    intro b v h
    cases b with
    | nil => simp [strcmp] at h
    | cons y b =>
      by_cases hc : x = y ∧ x ≠ 0
      · simp only [strcmp, if_pos hc] at h
        exact ih b v h
      · simp only [strcmp, if_neg hc, Option.some.injEq] at h
        have hx := x.isLt
        have hy := y.isLt
        omega

theorem byte_cons_lex (x y : Byte) (l r : List Byte) :
    List.Lex (fun c d : Byte => c < d) (x :: l) (y :: r) ↔
      x < y ∨ (x = y ∧ List.Lex (fun c d : Byte => c < d) l r) := by
  constructor
  · intro h
    cases h with
    | cons h => exact Or.inr ⟨rfl, h⟩
    | rel h => exact Or.inl h
  · rintro (h | ⟨rfl, h⟩)
    · exact List.Lex.rel h
    · exact List.Lex.cons h

theorem strcmp_neg_iff_lt (a : List Byte) : ∀ (b : List Byte) (v : Int),
    (0 : Byte) ∈ a → (0 : Byte) ∈ b → strcmp a b = some v →
    (v < 0 ↔ List.Lex (fun c d : Byte => c < d) (cstring a) (cstring b)) := by
  induction a with
  | nil => intro b v ha; simp at ha
  | cons x a ih =>
    intro b v ha hb h
    cases b with
    | nil => simp at hb
    | cons y b =>
      rw [cstring_cons, cstring_cons, byte_cons_lex]
      by_cases hc : x = y ∧ x ≠ 0
      · obtain ⟨hxy, hx⟩ := hc
        subst hxy
        simp only [strcmp, hx, ne_eq, not_false_eq_true, and_self, if_true] at h
        rw [ih b v (mem_tail_of_ne ha hx) (mem_tail_of_ne hb hx) h]
        simp [hx]
      · simp only [strcmp, if_neg hc, Option.some.injEq] at h
        subst h
        have hlt : ((x.val : Int) - (y.val : Int) < 0) ↔ x < y := by
          rw [Fin.lt_def]; omega
        rw [hlt]
        by_cases hxy : x = y
        · subst hxy
          have hx : x = 0 := by
            by_contra hx
            exact hc ⟨rfl, hx⟩
          subst hx
          simp
        · simp [hxy]

/-! ## Properties -/

/-- C1: for NUL-terminated `a` and `b`, `strcmp(a, b)` returns, and returns 0
exactly when the two strings are the same up to and including their
terminators, that is when they have the same length and the same byte at
every index up to the terminator. -/
theorem strcmp_eq_zero_iff (a b : List Byte) (ha : (0 : Byte) ∈ a) (hb : (0 : Byte) ∈ b) :
    (∃ v, strcmp a b = some v) ∧
    (strcmp a b = some 0 ↔ cstring a = cstring b) ∧
    (cstring a = cstring b ↔
      strlen a = strlen b ∧ ∀ i : Nat, i ≤ strlen a → a[i]? = b[i]?) := by
  refine ⟨strcmp_defined a b ha hb, ?_, ?_⟩
  · rw [cstring_eq_iff]; exact strcmp_zero_iff_str a b ha hb
  · rw [cstring_eq_iff]; exact str_eq_iff_index a b ha hb

theorem strcmp_eq_zero_iff_witness :
    (0 : Byte) ∈ [1, 2, 0] ∧ (0 : Byte) ∈ [1, 2, 0, 9] ∧
    strcmp [1, 2, 0] [1, 2, 0, 9] = some 0 :=
  ⟨by decide, by decide,
    (strcmp_eq_zero_iff [1, 2, 0] [1, 2, 0, 9] (by decide) (by decide)).2.1.2 (by decide)⟩

/-- C2: for NUL-terminated `l` and `r`, `strcmp(l, r)` is 0 when the strings
are equal up to and including the terminator, and otherwise there is a first
index `k` at which they differ and the result is `l[k] - r[k]`, both bytes
taken as values in `0..255`. A byte `>= 0x80` against a byte `< 0x80` gives a
positive result; `strcmp("\x80", "\x01")` is 127. -/
theorem strcmp_first_difference (l r : List Byte)
    (hl : (0 : Byte) ∈ l) (hr : (0 : Byte) ∈ r) :
    (cstring l = cstring r → strcmp l r = some 0) ∧
    (cstring l ≠ cstring r → ∃ k : Nat,
      (∀ j : Nat, j < k → (cstring l)[j]? = (cstring r)[j]?) ∧
      (cstring l)[k]? ≠ (cstring r)[k]?) ∧
    (∀ k : Nat, (∀ j : Nat, j < k → (cstring l)[j]? = (cstring r)[j]?) →
      (cstring l)[k]? ≠ (cstring r)[k]? →
      ∃ a b : Byte, l[k]? = some a ∧ r[k]? = some b ∧
        strcmp l r = some ((a.val : Int) - (b.val : Int))) ∧
    (∀ (x y : Byte) (t u : List Byte), 128 ≤ x.val → y.val < 128 →
      ∃ v : Int, strcmp (x :: t) (y :: u) = some v ∧ 0 < v) ∧
    strcmp [0x80, 0] [0x01, 0] = some 127 := by
  refine ⟨?_, exists_first_difference _ _, ?_, ?_, by decide⟩
  · intro h
    exact (strcmp_zero_iff_str l r hl hr).2 ((cstring_eq_iff l r).1 h)
  · intro k hagree hdiff
    exact strcmp_at_difference l r k hl hr hagree hdiff
  · intro x y t u hx hy
    have hxy : x ≠ y := by
      intro e
      subst e
      omega
    refine ⟨(x.val : Int) - (y.val : Int), ?_, by omega⟩
    simp [strcmp, hxy]

theorem strcmp_first_difference_witness :
    (0 : Byte) ∈ [1, 200, 0] ∧ (0 : Byte) ∈ [1, 3, 5, 0] ∧
    ∃ a b : Byte, ([1, 200, 0] : List Byte)[1]? = some a ∧
      ([1, 3, 5, 0] : List Byte)[1]? = some b ∧
      strcmp [1, 200, 0] [1, 3, 5, 0] = some ((a.val : Int) - (b.val : Int)) :=
  ⟨by decide, by decide,
    (strcmp_first_difference [1, 200, 0] [1, 3, 5, 0] (by decide) (by decide)).2.2.1 1
      (by decide) (by decide)⟩

/-- C3: for NUL-terminated `l` and `r` and every `n`, `strncmp(l, r, n)`
returns, and returns what `strcmp` returns on the two strings cut to at most
their first `n` bytes. It is `l[k] - r[k]` at the first index `k < n` at which
the strings differ, and 0 when they agree at every index below `n` (which
covers a shared terminator below `n`). -/
theorem strncmp_eq_strcmp_truncated (l r : List Byte) (n : Nat)
    (hl : (0 : Byte) ∈ l) (hr : (0 : Byte) ∈ r) :
    (∃ v, strncmp l r n = some v) ∧
    strncmp l r n = strcmp (truncated l n) (truncated r n) ∧
    (∀ k : Nat, k < n → (∀ j : Nat, j < k → (cstring l)[j]? = (cstring r)[j]?) →
      (cstring l)[k]? ≠ (cstring r)[k]? →
      ∃ a b : Byte, l[k]? = some a ∧ r[k]? = some b ∧
        strncmp l r n = some ((a.val : Int) - (b.val : Int))) ∧
    ((∀ k : Nat, k < n → (cstring l)[k]? = (cstring r)[k]?) → strncmp l r n = some 0) := by
  cases n with
  | zero =>
    refine ⟨⟨0, by simp [strncmp]⟩, by simp [strncmp, truncated_zero, strcmp], ?_, ?_⟩
    · intro k hk; omega
    · intro _; simp [strncmp]
  | succ m =>
    have hs : strncmp l r (m + 1) = strncmp_loop l r m := by simp [strncmp]
    rw [hs]
    refine ⟨strncmp_loop_defined l r m (Or.inr hl) (Or.inr hr),
      strncmp_loop_eq_strcmp_truncated l r m hl hr, ?_, ?_⟩
    · intro k hk hagree hdiff
      exact strncmp_loop_at_difference l r k m hl hr (by omega) hagree hdiff
    · intro hagree
      exact strncmp_loop_agree l r m hl hr (fun k hk => hagree k (by omega))

theorem strncmp_eq_strcmp_truncated_witness :
    (0 : Byte) ∈ [1, 2, 3, 0] ∧ (0 : Byte) ∈ [1, 2, 4, 0] ∧
    strncmp [1, 2, 3, 0] [1, 2, 4, 0] 2 = strcmp [1, 2, 0] [1, 2, 0] :=
  ⟨by decide, by decide,
    (strncmp_eq_strcmp_truncated [1, 2, 3, 0] [1, 2, 4, 0] 2 (by decide) (by decide)).2.1⟩

/-- C4: `strncmp(a, b, 0)` is 0 for all buffers, the empty ones included: a
buffer with no readable byte at all gives 0 too, so no byte is read. -/
theorem strncmp_zero_bound (a b : List Byte) :
    strncmp a b 0 = some 0 ∧ strncmp [] [] 0 = some 0 ∧
    strncmp a [] 0 = some 0 ∧ strncmp [] b 0 = some 0 := by
  simp [strncmp]

/-- C5: for every `int` other than `INT_MIN`, `abs` returns the absolute
value (`x` when `x >= 0`, `-x` when `x < 0`), the negation it computes is in
the range of `int`, and the result is not negative. -/
theorem abs_spec (x : Int) (hmin : INT_MIN < x) (hmax : x ≤ INT_MAX) :
    abs x = (if x ≥ 0 then x else -x) ∧ abs x = (x.natAbs : Int) ∧
    (INT_MIN ≤ -x ∧ -x ≤ INT_MAX) ∧ 0 ≤ abs x := by
  unfold INT_MIN at hmin
  unfold INT_MAX at hmax
  unfold abs wrap_int INT_MIN INT_MAX
  refine ⟨?_, ?_, ⟨by omega, by omega⟩, ?_⟩ <;> split <;> try split
  all_goals omega

theorem abs_spec_witness :
    INT_MIN < (-5 : Int) ∧ (-5 : Int) ≤ INT_MAX ∧ abs (-5) = ((-5 : Int).natAbs : Int) :=
  ⟨by decide, by decide, (abs_spec (-5) (by decide) (by decide)).2.1⟩

/-- C6: `pow`, `memset` and `memcpy` are the host primitives themselves, for
every host: same arguments in the same order, same result, same effects. On
the recording host each of them adds exactly one call to the log, with the
arguments it was given, and returns the sentinel. -/
theorem forwarding_identity {m : Type → Type} {Ptr Dbl : Type} (h : Host m Ptr Dbl)
    (x y sd : Dbl) (dest src sp : Ptr) (c : Int) (n : Nat) (log : List (Call Ptr Dbl)) :
    pow h x y = h.rui_c_pow x y ∧
    memset h dest c n = h.rui_c_memset dest c n ∧
    memcpy h dest src n = h.rui_c_memcpy dest src n ∧
    (pow (mock sd sp) x y).run log = (sd, log ++ [Call.pow x y]) ∧
    (memset (mock sd sp) dest c n).run log = (sp, log ++ [Call.memset dest c n]) ∧
    (memcpy (mock sd sp) dest src n).run log = (sp, log ++ [Call.memcpy dest src n]) :=
  ⟨rfl, rfl, rfl, rfl, rfl, rfl⟩

/-- C7: each of `STBI_ASSERT`, `STBIW_ASSERT`, `STBTT_assert`, on a condition
that evaluates to zero, is one call of `rui_c_panic` with the message
"Assertion ", the expression text, " failed!"; on the recording host exactly
one call is added to the log. -/
theorem assert_false_panics {m : Type → Type} [Monad m] {Ptr Dbl : Type}
    (h : Host m Ptr Dbl) (text : String) (sd : Dbl) (sp : Ptr) (log : List (Call Ptr Dbl)) :
    STBI_ASSERT h text 0 = h.rui_c_panic ("Assertion " ++ text ++ " failed!") ∧
    STBIW_ASSERT h text 0 = h.rui_c_panic ("Assertion " ++ text ++ " failed!") ∧
    STBTT_assert h text 0 = h.rui_c_panic ("Assertion " ++ text ++ " failed!") ∧
    (STBI_ASSERT (mock sd sp) text 0).run log
      = ((), log ++ [Call.panic ("Assertion " ++ text ++ " failed!")]) ∧
    (STBIW_ASSERT (mock sd sp) text 0).run log
      = ((), log ++ [Call.panic ("Assertion " ++ text ++ " failed!")]) ∧
    (STBTT_assert (mock sd sp) text 0).run log
      = ((), log ++ [Call.panic ("Assertion " ++ text ++ " failed!")]) :=
  ⟨rfl, rfl, rfl, rfl, rfl, rfl⟩

/-- C8: for `n >= 1` and buffers that each have `n` readable bytes or a NUL
below index `n`, `strncmp(l, r, n)` returns a value: no read falls outside a
buffer. It returns the same value on the buffers cut down to their windows
(indices below `n`, nothing after the first NUL), so no byte outside the
windows is read. -/
theorem strncmp_reads_in_window (l r : List Byte) (n : Nat) (hn : 1 ≤ n)
    (hl : n ≤ l.length ∨ ∃ k : Nat, k < n ∧ l[k]? = some 0)
    (hr : n ≤ r.length ∨ ∃ k : Nat, k < n ∧ r[k]? = some 0) :
    ∃ v, strncmp l r n = some v ∧ strncmp (window l n) (window r n) n = some v := by
  obtain ⟨m, rfl⟩ := Nat.exists_eq_succ_of_ne_zero (Nat.one_le_iff_ne_zero.1 hn)
  have hl2 : m + 1 ≤ l.length ∨ (0 : Byte) ∈ l := by
    rcases hl with h | ⟨k, _, hk⟩
    · exact Or.inl h
    · exact Or.inr (List.getElem?_mem hk)
  have hr2 : m + 1 ≤ r.length ∨ (0 : Byte) ∈ r := by
    rcases hr with h | ⟨k, _, hk⟩
    · exact Or.inl h
    · exact Or.inr (List.getElem?_mem hk)
  obtain ⟨v, hv⟩ := strncmp_loop_defined l r m hl2 hr2
  refine ⟨v, ?_, ?_⟩
  · simpa [strncmp] using hv
  · have := strncmp_loop_window l r m
    simp only [strncmp, Nat.succ_ne_zero, if_false, Nat.succ_sub_one] at this ⊢
    rw [this]; exact hv

theorem strncmp_reads_in_window_witness :
    (1 ≤ 3) ∧ 3 ≤ ([1, 2, 3] : List Byte).length ∧ 3 ≤ ([1, 2, 3] : List Byte).length ∧
    ∃ v, strncmp [1, 2, 3] [1, 2, 3] 3 = some v ∧
      strncmp (window [1, 2, 3] 3) (window [1, 2, 3] 3) 3 = some v :=
  ⟨by decide, by decide, by decide,
    strncmp_reads_in_window [1, 2, 3] [1, 2, 3] 3 (by decide) (Or.inl (by decide))
      (Or.inl (by decide))⟩

/-- C9: for NUL-terminated `l` and `r` and a bound `n` greater than the
length of the shorter string, `strncmp(l, r, n)` returns what `strcmp(l, r)`
returns (and this is a value). -/
theorem strncmp_eq_strcmp_of_long_bound (l r : List Byte) (n : Nat)
    (hl : (0 : Byte) ∈ l) (hr : (0 : Byte) ∈ r) (hn : min (strlen l) (strlen r) < n) :
    strncmp l r n = strcmp l r ∧ ∃ v, strcmp l r = some v := by
  refine ⟨?_, strcmp_defined l r hl hr⟩
  have hn0 : n ≠ 0 := by omega
  simp only [strncmp, if_neg hn0]
  exact strncmp_loop_eq_strcmp l r (n - 1) hl hr (by omega)

theorem strncmp_eq_strcmp_of_long_bound_witness :
    (0 : Byte) ∈ [1, 2, 0] ∧ (0 : Byte) ∈ [1, 2, 3, 4, 0] ∧
    min (strlen [1, 2, 0]) (strlen [1, 2, 3, 4, 0]) < 3 ∧
    strncmp [1, 2, 0] [1, 2, 3, 4, 0] 3 = strcmp [1, 2, 0] [1, 2, 3, 4, 0] :=
  ⟨by decide, by decide, by decide,
    (strncmp_eq_strcmp_of_long_bound [1, 2, 0] [1, 2, 3, 4, 0] 3 (by decide) (by decide)
      (by decide)).1⟩

/-- C10: for NUL-terminated `a` and `b`, `strcmp(a, b)` is the negation of
`strcmp(b, a)`, lies between -255 and 255, and its sign is the lexicographic
order of the two strings read as unsigned bytes: negative exactly when `a` is
before `b`, zero exactly when they are equal, positive exactly when `b` is
before `a`. -/
theorem strcmp_antisymm_bounded (a b : List Byte)
    (ha : (0 : Byte) ∈ a) (hb : (0 : Byte) ∈ b) :
    ∃ v : Int, strcmp a b = some v ∧ strcmp b a = some (-v) ∧
      -255 ≤ v ∧ v ≤ 255 ∧
      (v < 0 ↔ List.Lex (fun c d : Byte => c < d) (cstring a) (cstring b)) ∧
      (v = 0 ↔ cstring a = cstring b) ∧
      (0 < v ↔ List.Lex (fun c d : Byte => c < d) (cstring b) (cstring a)) := by
  obtain ⟨v, hv⟩ := strcmp_defined a b ha hb
  have hanti := strcmp_antisymm a b v hv
  have hbd := strcmp_bounds a b v hv
  refine ⟨v, hv, hanti, hbd.1, hbd.2, strcmp_neg_iff_lt a b v ha hb hv, ?_, ?_⟩
  · rw [cstring_eq_iff, ← strcmp_zero_iff_str a b ha hb, hv, Option.some.injEq]
  · rw [← strcmp_neg_iff_lt b a (-v) hb ha hanti]
    omega

theorem strcmp_antisymm_bounded_witness :
    (0 : Byte) ∈ [128, 0] ∧ (0 : Byte) ∈ [1, 0] ∧
    ∃ v : Int, strcmp [128, 0] [1, 0] = some v ∧ strcmp [1, 0] [128, 0] = some (-v) ∧
      -255 ≤ v ∧ v ≤ 255 ∧
      (v < 0 ↔ List.Lex (fun c d : Byte => c < d) (cstring [128, 0]) (cstring [1, 0])) ∧
      (v = 0 ↔ cstring [128, 0] = cstring [1, 0]) ∧
      (0 < v ↔ List.Lex (fun c d : Byte => c < d) (cstring [1, 0]) (cstring [128, 0])) :=
  ⟨by decide, by decide, strcmp_antisymm_bounded [128, 0] [1, 0] (by decide) (by decide)⟩

end Rui
